import Mathlib

/-!
Verification of `scholar_webpages_to_singlepage_pdf.py`.

The Python program is shallowly embedded: pure functions become Lean
functions over `ℚ`, `List Char` and byte lists (`List ℕ`, each entry a
byte of the UTF-8 encoding of the Python string); the stateful main loop
becomes a trace-producing function driven by oracles for the
nondeterministic outcomes (browser failures, CAPTCHA marker checks).
-/

namespace Scholar

/-! ### compute_full_height_inches (source lines 37-47)

`height_inches = (scroll_height / 96.0) + (margin_in * 2.0)` followed by
`max(min_in, min(height_inches, max_in))`.  Python float arithmetic is
modelled with exact rationals. -/

def compute_full_height_inches (scroll_height min_in max_in margin_in : ℚ) : ℚ :=
  max min_in (min (scroll_height / 96 + margin_in * 2) max_in)

/-- Default keyword values `min_in=1.0`. -/
def default_min_in : ℚ := 1

/-- Default keyword value `max_in=200.0`. -/
def default_max_in : ℚ := 200

/-- Default keyword value `margin_in=0.4`. -/
def default_margin_in : ℚ := 2/5

/-! ### merge_pdfs (source lines 28-35)

A PDF document is modelled by its list of pages; a page is opaque (a byte
list).  `merge_pdfs` iterates the inputs in order, appending every page of
every input to the writer. -/

def PdfPage : Type := List ℕ

def merge_pdfs (inputs : List (List PdfPage)) : List PdfPage :=
  inputs.foldl (fun writer reader => writer ++ reader) []

/-! ### safe_name (source lines 21-26)

`base = url.strip().split("://")[-1]`, `base = base[:150]`,
`SAFE.sub("_", base) or "page"` with `SAFE = re.compile(r"[^a-zA-Z0-9._-]+")`:
each maximal run of unsafe characters is collapsed to one underscore. -/

def safeChar (c : Char) : Bool :=
  (('a' ≤ c ∧ c ≤ 'z') ∨ ('A' ≤ c ∧ c ≤ 'Z') ∨ ('0' ≤ c ∧ c ≤ '9')
    ∨ c = '.' ∨ c = '_' ∨ c = '-')

/-- Python `str.strip()`: drop leading and trailing whitespace. -/
def pyStrip (l : List Char) : List Char :=
  ((l.dropWhile Char.isWhitespace).reverse.dropWhile Char.isWhitespace).reverse

/-- Python `s.split("://")`: split on non-overlapping occurrences of `"://"`,
scanning left to right (the pattern cannot overlap itself). -/
def splitScheme : List Char → List (List Char)
  | [] => [[]]
  | ':' :: '/' :: '/' :: rest => [] :: splitScheme rest
  | c :: rest =>
    match splitScheme rest with
    | [] => [[c]]
    | h :: t => (c :: h) :: t

/-- Python `re.sub` for the pattern `[^a-zA-Z0-9._-]+`: each maximal
nonempty run of unsafe characters becomes a single `'_'`.  The flag records
whether the previous character was part of an unsafe run, so a run emits
one underscore at its first character and nothing afterwards. -/
def collapseAux : Bool → List Char → List Char
  | _, [] => []
  | inRun, c :: rest =>
    if safeChar c then c :: collapseAux false rest
    else if inRun then collapseAux true rest
    else '_' :: collapseAux true rest

def collapseUnsafe (l : List Char) : List Char := collapseAux false l

def safe_name (url : List Char) : List Char :=
  let base := ((splitScheme (pyStrip url)).getLastD []).take 150
  let subbed := collapseUnsafe base
  if subbed = [] then "page".data else subbed

/-- Python `f"{i:03d}"`: decimal digits of `i` left-padded with zeros to
width 3. -/
def pad3 (i : ℕ) : List Char :=
  let s := (Nat.repr i).data
  List.replicate (3 - s.length) '0' ++ s

/-- The per-page output file name, `f"{i:03d}_{safe_name(url)}.pdf"`
(source line 187). -/
def pageName (i : ℕ) (url : List Char) : List Char :=
  pad3 i ++ '_' :: safe_name url ++ ".pdf".data

/-! ### urllib.parse machinery (collaborators of `build_urls_from_range`)

Python strings are modelled as lists of bytes of their UTF-8 encoding
(`List ℕ`); the program only splits/compares on ASCII delimiters, for which
the byte-level view coincides with Python's code-point view. -/

def isAsciiDigitB (b : ℕ) : Bool := 48 ≤ b ∧ b ≤ 57

def isAsciiAlphaB (b : ℕ) : Bool := (65 ≤ b ∧ b ≤ 90) ∨ (97 ≤ b ∧ b ≤ 122)

/-- The bytes `urllib.parse.quote` never escapes (with `safe=''`):
ASCII letters, digits, and `_ . - ~`. -/
def safeByte (b : ℕ) : Bool :=
  isAsciiAlphaB b || isAsciiDigitB b || b = 95 || b = 46 || b = 45 || b = 126

/-- Uppercase hex digit byte for a nibble, as `quote` produces. -/
def hexDig (n : ℕ) : ℕ := if n < 10 then 48 + n else 55 + n

def quoteByte (b : ℕ) : List ℕ :=
  if safeByte b then [b]
  else if b = 32 then [43]
  else [37, hexDig (b / 16), hexDig (b % 16)]

/-- Python `urllib.parse.quote_plus(s, safe='')` on UTF-8 bytes. -/
def quote_plus (s : List ℕ) : List ℕ := (s.map quoteByte).flatten

def isHexB (b : ℕ) : Bool :=
  isAsciiDigitB b || (65 ≤ b ∧ b ≤ 70) || (97 ≤ b ∧ b ≤ 102)

def hexVal (b : ℕ) : ℕ :=
  if b ≤ 57 then b - 48 else if b ≤ 70 then b - 55 else b - 87

/-- Python `urllib.parse.unquote_plus`: `+` decodes to space, `%XX` with two
hex digits decodes to a byte, malformed escapes stay literal. -/
def unquote_plus : List ℕ → List ℕ
  | [] => []
  | 43 :: rest => 32 :: unquote_plus rest
  | 37 :: h1 :: h2 :: rest =>
    if isHexB h1 ∧ isHexB h2 then (hexVal h1 * 16 + hexVal h2) :: unquote_plus rest
    else 37 :: unquote_plus (h1 :: h2 :: rest)
  | b :: rest => b :: unquote_plus rest

/-- Python `str.split(sep)` for a one-byte separator. -/
def splitOnByte (sep : ℕ) : List ℕ → List (List ℕ)
  | [] => [[]]
  | b :: rest =>
    if b = sep then [] :: splitOnByte sep rest
    else
      match splitOnByte sep rest with
      | [] => [[b]]
      | h :: t => (b :: h) :: t

/-- Python `s.split('=', 1)` when `'='` occurs: the parts before and after
the first `'='`; `none` when it does not occur. -/
def splitFirstEq : List ℕ → Option (List ℕ × List ℕ)
  | [] => none
  | b :: rest =>
    if b = 61 then some ([], rest)
    else (splitFirstEq rest).map (fun p => (b :: p.1, p.2))

/-- One field of `parse_qsl` with `keep_blank_values=False`: dropped unless
it contains `'='` followed by a nonempty raw value; name and value are
percent-decoded. -/
def parseField (field : List ℕ) : Option (List ℕ × List ℕ) :=
  match splitFirstEq field with
  | none => none
  | some (n, v) => if v = [] then none else some (unquote_plus n, unquote_plus v)

/-- Python `urllib.parse.parse_qsl(qs)` with default arguments. -/
def parse_qsl (qs : List ℕ) : List (List ℕ × List ℕ) :=
  (splitOnByte 38 qs).filterMap parseField

/-- A Python dict from names to lists of values, as an insertion-ordered
association list. -/
abbrev QDict := List (List ℕ × List (List ℕ))

/-- Append one value for a key, keeping the key's insertion position
(Python `parsed_result[name].append(value)` / fresh-key insertion). -/
def dictAppend (d : QDict) (k : List ℕ) (v : List ℕ) : QDict :=
  match d with
  | [] => [(k, [v])]
  | (k', vs) :: rest =>
    if k' = k then (k', vs ++ [v]) :: rest else (k', vs) :: dictAppend rest k v

/-- Python `urllib.parse.parse_qs(qs)` with default arguments. -/
def parse_qs (qs : List ℕ) : QDict :=
  (parse_qsl qs).foldl (fun d kv => dictAppend d kv.1 kv.2) []

/-- Python dict assignment `d[k] = v`: replace in place, else append. -/
def dictSet (d : QDict) (k : List ℕ) (v : List (List ℕ)) : QDict :=
  match d with
  | [] => [(k, v)]
  | (k', vs) :: rest =>
    if k' = k then (k', v) :: rest else (k', vs) :: dictSet rest k v

/-- Python dict lookup. -/
def dictFind (d : QDict) (k : List ℕ) : Option (List (List ℕ)) :=
  match d with
  | [] => none
  | (k', vs) :: rest => if k' = k then some vs else dictFind rest k

/-- Source line 85: `urlencode({k: v[0] if isinstance(v, list) else v ...})`.
Every value in the dict is a list here, so each key contributes its first
value only, quoted with `quote_plus`. -/
def urlencodeFirst (d : QDict) : List ℕ :=
  List.intercalate [38]
    (d.map (fun kv => quote_plus kv.1 ++ 61 :: quote_plus (kv.2.headD [])))

/-- Decimal digits of a natural number, most significant first, as ASCII
bytes; the fuel argument (any bound on the digit count, here `n + 1`) makes
the recursion structural. -/
def natStrAux : ℕ → ℕ → List ℕ
  | 0, _ => []
  | fuel + 1, n =>
    if n < 10 then [48 + n] else natStrAux fuel (n / 10) ++ [48 + n % 10]

/-- Python `str(n)` for a natural number, as ASCII bytes. -/
def natStr (n : ℕ) : List ℕ := natStrAux (n + 1) n

/-- Python `str(s)` for an integer, as ASCII bytes (a `'-'` then the digits
when negative). -/
def intStr (s : ℤ) : List ℕ :=
  if s < 0 then 45 :: natStr s.natAbs else natStr s.natAbs

/-- Length of Python `range(a, b, step)` for positive `step`, as CPython
computes it: `(b - a - 1) // step + 1` when `a < b`, else `0`. -/
def pyRangeLen (a b step : ℤ) : ℕ :=
  if a < b ∧ 0 < step then (b - 1 - a).toNat / step.toNat + 1 else 0

/-- Python `range(a, b, step)` for positive `step` (the program calls it
with `range(start_from, start_to + 1, step)`; `step = 0` raises in Python
and negative steps are outside the program's use): the arithmetic sequence
`a, a + step, ...` of length `pyRangeLen a b step`. -/
def pyRange (a b step : ℤ) : List ℤ :=
  (List.range (pyRangeLen a b step)).map (fun j : ℕ => a + step * (j : ℤ))

/-- Result of `urllib.parse.urlparse`: the six URL components.  The source
builds each generated URL with `urlunparse` from these components, changing
only `query`; the embedding works at this parsed level. -/
structure ParsedUrl where
  scheme : List ℕ
  netloc : List ℕ
  path : List ℕ
  params : List ℕ
  query : List ℕ
  fragment : List ℕ
deriving DecidableEq

/-- The query key `"start"` as bytes. -/
def startKey : List ℕ := "start".data.map Char.toNat

/-- Source lines 76-88. -/
def build_urls_from_range (parsed : ParsedUrl) (start_from start_to step : ℤ) :
    List ParsedUrl :=
  let q := parse_qs parsed.query
  (pyRange start_from (start_to + 1) step).map (fun s =>
    let q_mod := dictSet q startKey [intStr s]
    { parsed with query := urlencodeFirst q_mod })

/-- The (first) value of the `start` query parameter of a generated URL,
read back through `parse_qs`. -/
def getStart (u : ParsedUrl) : Option (List ℕ) :=
  (dictFind (parse_qs u.query) startKey).map (fun vs => vs.headD [])

/-! ### maybe_wait_for_captcha (source lines 154-181)

A marker check (`find_elements` combination, lines 161-163 / 171-173) is
modelled as an oracle indexed by elapsed seconds, returning
`Except.error ()` when the browser call throws. -/

abbrev Check := Except Unit Bool

/-- The poll loop of lines 168-176: `end = time + timeout`; while the time
is before `end`, sleep 3 s then re-check; return as soon as the markers are
gone, or after the timeout ("continuing anyway", line 177).  Either way the
result is `true`.  The list records the times at which checks ran.  `fuel`
is an upper bound on the iteration count; the loop condition proper is
`now < endT`. -/
def captchaPollAux (still : ℕ → Check) (endT : ℕ) :
    ℕ → ℕ → Except Unit (Bool × List ℕ)
  | 0, _ => .ok (true, [])
  | fuel + 1, now =>
    if now < endT then
      match still (now + 3) with
      | .error e => .error e
      | .ok true =>
        match captchaPollAux still endT fuel (now + 3) with
        | .error e => .error e
        | .ok (b, ts) => .ok (b, (now + 3) :: ts)
      | .ok false => .ok (true, [now + 3])
    else .ok (true, [])

def captchaPoll (still : ℕ → Check) (now endT : ℕ) : Except Unit (Bool × List ℕ) :=
  captchaPollAux still endT (endT - now) now

/-- Source lines 154-181.  `present0` is the initial marker check; any
exception is swallowed by the `except Exception: pass` and the function
falls through to `return False`.  Returns `true` exactly when a CAPTCHA was
detected and the wait (cleared or timed out) completed without a browser
exception. -/
def maybe_wait_for_captcha (present0 : Check) (still : ℕ → Check)
    (timeout_s : ℕ) : Bool :=
  match present0 with
  | .error _ => false
  | .ok false => false
  | .ok true =>
    match captchaPoll still 0 timeout_s with
    | .error _ => false
    | .ok (b, _) => b

/-! ### The main URL loop (source lines 185-237)

The body of one retry attempt (navigate, CAPTCHA phase, settle, print) is
abstracted by an oracle giving its outcome; the CAPTCHA phase contributes
only a possible reload.  The run is represented by its event trace plus the
collected artifact names. -/

/-- Outcome of one attempt body: `ok` = PDF written; `wdErr` = a
`WebDriverException`, caught at line 218; `fatal` = any other exception,
which propagates. -/
inductive Outcome where
  | ok : Outcome
  | wdErr : Outcome
  | fatal : Outcome
deriving DecidableEq

inductive Ev where
  | nav : ℕ → ℕ → Ev
  | reload : ℕ → Ev
  | sleptPace : ℕ → Ev
  | sleptBackoff : ℕ → Ev
  | sleptCooldown : Ev
  | captured : ℕ → Ev
  | quitDriver : Ev
  | mergedWritten : Ev
  | exited : ℕ → Ev
deriving DecidableEq

/-- The retry loop of lines 196-221 (`attempts, backoff = 0, 3`;
`while attempts < 3`), unrolled on the remaining iteration count
`3 - attempts`.  `out a` is the outcome of attempt `a`; `cap a` is the
value of `args.headful and maybe_wait_for_captcha(...)` during attempt `a`
(a reload happens when it is true, line 204).  Returns the events of this
URL's attempts and `Except.error` when a non-WebDriver exception
propagates; otherwise whether an artifact was recorded. -/
def retryLoop (i : ℕ) (out : ℕ → Outcome) (cap : ℕ → Bool) :
    ℕ → ℕ → ℕ → List Ev × Except Unit Bool
  | 0, _, _ => (([] : List Ev), .ok false)
  | remaining + 1, attempts, backoff =>
    let a := attempts + 1
    let pre := Ev.nav i a :: (if cap a then [Ev.reload i] else [])
    match out a with
    | .ok => (pre ++ [Ev.captured i], .ok true)
    | .fatal => (pre, .error ())
    | .wdErr =>
      let (evs, r) := retryLoop i out cap remaining a (backoff * 2)
      (pre ++ Ev.sleptBackoff backoff :: evs, r)

/-- Per-URL processing, lines 191-221: the random pacing sleep then the
retry loop with `attempts = 0`, `backoff = 3`. -/
def processUrl (i : ℕ) (out : ℕ → Outcome) (cap : ℕ → Bool) :
    List Ev × Except Unit Bool :=
  let (evs, r) := retryLoop i out cap 3 0 3
  (Ev.sleptPace i :: evs, r)

/-- The `for i, url in enumerate(urls, 1)` loop of lines 186-226, including
the burst cooldown (line 224: `i % rest_every == 0 and i < len(urls)`).
Artifact names accumulate in `pdf_paths` order. -/
def urlLoop (out : ℕ → ℕ → Outcome) (cap : ℕ → ℕ → Bool)
    (total restEvery : ℕ) :
    List (List Char) → ℕ → List Ev × Except Unit (List (ℕ × List Char))
  | [], _ => (([] : List Ev), .ok [])
  | u :: rest, i =>
    let (evs1, r1) := processUrl i (out i) (cap i)
    match r1 with
    | .error e => (evs1, .error e)
    | .ok success =>
      let arts1 := if success then [(i, pageName i u)] else []
      let cool : List Ev :=
        if i % restEvery = 0 ∧ i < total then [Ev.sleptCooldown] else []
      let (evs2, r2) := urlLoop out cap total restEvery rest (i + 1)
      (evs1 ++ cool ++ evs2, r2.map (fun arts => arts1 ++ arts))

inductive ExitKind where
  | exit1 : ExitKind
  | exit2 : ExitKind
  | raised : ExitKind
  | normal : ExitKind
deriving DecidableEq

structure RunResult where
  trace : List Ev
  exit : ExitKind
  artifacts : List (ℕ × List Char)
deriving DecidableEq

/-- Lines 131-237 of `main` after URL resolution: the empty-URL early exit
(line 133, `sys.exit(1)`, before the driver exists), the URL loop guarded
by `try/finally: driver.quit()` (lines 185-229), the no-artifact exit
(line 232, `sys.exit(2)`), and otherwise the merge (line 235). -/
def mainRun (urls : List (List Char)) (out : ℕ → ℕ → Outcome)
    (cap : ℕ → ℕ → Bool) (restEvery : ℕ) : RunResult :=
  if urls = [] then ⟨[Ev.exited 1], .exit1, []⟩
  else
    let (evs, r) := urlLoop out cap urls.length restEvery urls 1
    match r with
    | .error _ => ⟨evs ++ [Ev.quitDriver], .raised, []⟩
    | .ok arts =>
      if arts = [] then ⟨evs ++ [Ev.quitDriver, Ev.exited 2], .exit2, []⟩
      else ⟨evs ++ [Ev.quitDriver, Ev.mergedWritten], .normal, arts⟩

/-- Whether an event is a navigation (one capture attempt navigates once,
line 200). -/
def isNav : Ev → Bool
  | .nav _ _ => true
  | _ => false

/-- Invariant of every dict the program builds from a parsed query: keys
are pairwise distinct byte strings, every key's value list is nonempty, and
every stored value is a nonempty byte string. -/
def GoodDict (d : QDict) : Prop :=
  (d.map Prod.fst).Nodup ∧
  ∀ kv ∈ d, (∀ b ∈ kv.1, b < 256) ∧ kv.2 ≠ [] ∧
    ∀ v ∈ kv.2, v ≠ [] ∧ ∀ b ∈ v, b < 256

/-- Base URL whose query has a repeated parameter (`a=1&a=2`). -/
def multiParamBase : ParsedUrl :=
  ⟨[], [], [], [], [97, 61, 49, 38, 97, 61, 50], []⟩

/-! ## Theorems -/

theorem foldl_append_eq_flatten (inputs : List (List PdfPage)) (acc : List PdfPage) :
    inputs.foldl (fun writer reader => writer ++ reader) acc = acc ++ inputs.flatten := by
  induction inputs generalizing acc with
  | nil => simp
  | cons p rest ih => simp [ih, List.append_assoc]

/-- C2: for every scroll height `s` and margin `m`, the computed paper
height is `s/96 + 2m` clamped to `[min_in, max_in]`; it is monotone in `s`,
lies in `[min_in, max_in]` whenever `min_in ≤ max_in`, equals `min_in` at
`s = 0` for the default parameters, and equals `max_in` at `s = 50000`. -/
theorem compute_full_height_clamp_monotone (s s' m lo hi : ℚ)
    (_hs : 0 ≤ s) (hlohi : lo ≤ hi) :
    compute_full_height_inches s lo hi m = max lo (min (s / 96 + 2 * m) hi) ∧
    (s ≤ s' → compute_full_height_inches s lo hi m ≤
      compute_full_height_inches s' lo hi m) ∧
    lo ≤ compute_full_height_inches s lo hi m ∧
    compute_full_height_inches s lo hi m ≤ hi ∧
    compute_full_height_inches 0 default_min_in default_max_in default_margin_in
      = default_min_in ∧
    compute_full_height_inches 50000 default_min_in default_max_in default_margin_in
      = default_max_in := by
  refine ⟨?_, ?_, ?_, ?_, ?_, ?_⟩
  · unfold compute_full_height_inches; ring_nf
  · intro hss
    unfold compute_full_height_inches
    apply max_le_max le_rfl
    apply min_le_min _ le_rfl
    have : s / 96 ≤ s' / 96 := by linarith
    linarith
  · exact le_max_left _ _
  · exact max_le hlohi (le_trans (min_le_right _ _) le_rfl)
  · unfold compute_full_height_inches default_min_in default_max_in default_margin_in
    rw [min_eq_left (by norm_num), max_eq_left (by norm_num)]
  · unfold compute_full_height_inches default_min_in default_max_in default_margin_in
    rw [min_eq_right (by norm_num), max_eq_right (by norm_num)]

/-- Witness for the height-computation theorem at `s = 0`, `s' = 1`,
`m = 2/5`, `lo = 1`, `hi = 200`. -/
theorem compute_full_height_clamp_monotone_witness :
    (0:ℚ) ≤ 0 ∧ (1:ℚ) ≤ 200 ∧
      (1:ℚ) ≤ compute_full_height_inches 0 1 200 (2/5) := by
  refine ⟨le_refl 0, by norm_num, ?_⟩
  exact (compute_full_height_clamp_monotone 0 1 (2/5) 1 200 le_rfl
    (by norm_num)).2.2.1

/-- C7: the merged document is the concatenation of the input documents'
page lists in input order, so its page count is the sum of the input page
counts, and the `i`-th page of the merged document is the corresponding
page of the corresponding input; no input is assumed to have one page. -/
theorem merge_pdfs_concat (inputs : List (List PdfPage)) :
    merge_pdfs inputs = inputs.flatten ∧
    (merge_pdfs inputs).length = (inputs.map List.length).sum ∧
    ∀ doc ∈ inputs, ∀ page ∈ doc, page ∈ merge_pdfs inputs := by
  have h : merge_pdfs inputs = inputs.flatten := foldl_append_eq_flatten inputs []
  refine ⟨h, ?_, ?_⟩
  · rw [h, List.length_flatten]
  · intro doc hdoc page hpage
    rw [h]
    exact List.mem_flatten.mpr ⟨doc, hdoc, hpage⟩

theorem collapseAux_safe (l : List Char) :
    ∀ b, ∀ c ∈ collapseAux b l, safeChar c := by
  induction l with
  | nil => intro b c hc; simp [collapseAux] at hc
  | cons d rest ih =>
    intro b c hc
    by_cases h : safeChar d
    · simp only [collapseAux, h, if_true, List.mem_cons] at hc
      rcases hc with hc | hc
      · exact hc ▸ h
      · exact ih false c hc
    · cases b with
      | true =>
        simp only [collapseAux, h, Bool.false_eq_true, if_false, if_true] at hc
        exact ih true c hc
      | false =>
        simp only [collapseAux, h, Bool.false_eq_true, if_false,
          List.mem_cons] at hc
        rcases hc with hc | hc
        · subst hc; decide
        · exact ih true c hc

theorem collapseAux_length (l : List Char) :
    ∀ b, (collapseAux b l).length ≤ l.length := by
  induction l with
  | nil => intro b; simp [collapseAux]
  | cons d rest ih =>
    intro b
    by_cases h : safeChar d
    · simpa [collapseAux, h] using ih false
    · cases b with
      | true =>
        simp only [collapseAux, h, Bool.false_eq_true, if_false, if_true]
        exact le_trans (ih true) (Nat.le_succ _)
      | false =>
        simpa [collapseAux, h] using ih true

theorem safe_name_eq_ite (url : List Char) :
    safe_name url =
      (if collapseAux false (((splitScheme (pyStrip url)).getLastD []).take 150) = []
       then "page".data
       else collapseAux false (((splitScheme (pyStrip url)).getLastD []).take 150)) :=
  rfl

theorem safe_name_safe_chars (url : List Char) :
    ∀ c ∈ safe_name url, safeChar c := by
  intro c hc
  rw [safe_name_eq_ite] at hc
  split at hc
  · revert hc
    revert c
    decide
  · exact collapseAux_safe _ false c hc

theorem safe_name_length_le (url : List Char) :
    (safe_name url).length ≤ 150 := by
  rw [safe_name_eq_ite]
  split
  · decide
  · exact le_trans (collapseAux_length _ false) (List.length_take_le _ _)

set_option maxRecDepth 10000 in
theorem repr_length_le_three :
    ∀ i < 1000, ((Nat.repr i).data.length ≤ 3 ∧ 1 ≤ (Nat.repr i).data.length) := by
  decide

theorem urlLoop_artifacts_shape (out : ℕ → ℕ → Outcome) (cap : ℕ → ℕ → Bool)
    (total re : ℕ) :
    ∀ (us : List (List Char)) (i : ℕ) (arts : List (ℕ × List Char)),
      (urlLoop out cap total re us i).2 = .ok arts →
      ∀ a ∈ arts, i ≤ a.1 ∧ ∃ u ∈ us, a.2 = pageName a.1 u := by
  intro us
  induction us with
  | nil =>
    intro i arts h a ha
    simp only [urlLoop] at h
    cases h
    simp at ha
  | cons u rest ih =>
    intro i arts h a ha
    simp only [urlLoop] at h
    rcases hp : processUrl i (out i) (cap i) with ⟨evs1, r1⟩
    rw [hp] at h
    cases r1 with
    | error e => simp at h
    | ok success =>
      simp only at h
      rcases hl : urlLoop out cap total re rest (i + 1) with ⟨evs2, r2⟩
      rw [hl] at h
      cases r2 with
      | error e => simp [Except.map] at h
      | ok arts2 =>
        simp only [Except.map] at h
        cases h
        have hrest := ih (i + 1) arts2 (by rw [hl])
        rcases List.mem_append.mp ha with hmem | hmem
        · cases success with
          | true =>
            simp only [if_true] at hmem
            rcases List.mem_singleton.mp hmem with rfl
            exact ⟨le_rfl, u, List.mem_cons_self u rest, rfl⟩
          | false => simp at hmem
        · obtain ⟨hle, v, hv, hname⟩ := hrest a hmem
          exact ⟨le_trans (Nat.le_succ i) hle, v, List.mem_cons_of_mem u hv, hname⟩

/-- C8: the per-page file name is the zero-padded ordinal, an underscore,
the sanitized URL, and the `.pdf` suffix; the sanitized part contains only
characters in `[a-zA-Z0-9._-]` and is at most 150 characters long; the
padded ordinal has exactly 3 digits for ordinals up to 999; and every
artifact recorded by the run carries a 1-based ordinal with the name built
from its URL by this scheme. -/
theorem pageName_format (i : ℕ) (url : List Char) :
    pageName i url = pad3 i ++ '_' :: (safe_name url ++ ".pdf".data) ∧
    (∀ c ∈ safe_name url, safeChar c) ∧
    (safe_name url).length ≤ 150 ∧
    (i ≤ 999 → (pad3 i).length = 3) ∧
    (∀ urls out cap re, ∀ a ∈ (mainRun urls out cap re).artifacts,
      1 ≤ a.1 ∧ ∃ u ∈ urls, a.2 = pageName a.1 u) := by
  refine ⟨?_, safe_name_safe_chars url, safe_name_length_le url, ?_, ?_⟩
  · simp [pageName]
  · intro hle
    obtain ⟨h3, h1⟩ := repr_length_le_three i (Nat.lt_succ_of_le hle)
    simp only [pad3, List.length_append, List.length_replicate]
    omega
  · intro urls out cap re a ha
    unfold mainRun at ha
    split at ha
    · simp at ha
    · rcases hl : urlLoop out cap urls.length re urls 1 with ⟨evs, r⟩
      rw [hl] at ha
      cases r with
      | error e => simp at ha
      | ok arts =>
        simp only at ha
        split at ha
        · simp at ha
        · obtain ⟨hle, u, hu, hname⟩ :=
            urlLoop_artifacts_shape out cap urls.length re urls 1 arts
              (by rw [hl]) a ha
          exact ⟨hle, u, hu, hname⟩

/-- Witness for the file-name theorem at ordinal 7 and a URL containing
`? & : /` characters. -/
theorem pageName_format_witness :
    7 ≤ 999 ∧ (pad3 7).length = 3 ∧
    (∀ c ∈ safe_name "https://scholar.google.com/citations?user=x&start=5".data,
      safeChar c) := by
  refine ⟨by norm_num, ?_, ?_⟩
  · exact (pageName_format 7
      "https://scholar.google.com/citations?user=x&start=5".data).2.2.2.1
      (by norm_num)
  · exact (pageName_format 7
      "https://scholar.google.com/citations?user=x&start=5".data).2.1

theorem splitScheme_cons (c : Char) (rest : List Char)
    (hno : ∀ r1 : List Char, c = ':' → rest = '/' :: '/' :: r1 → False) :
    splitScheme (c :: rest) =
      match splitScheme rest with
      | [] => [[c]]
      | h :: t => (c :: h) :: t := by
  rw [splitScheme.eq_def]
  split <;>
    first
      | (rename_i heq; exact (List.cons_ne_nil _ _ heq).elim)
      | (rename_i heq; injection heq with h1 h2; exact (hno _ h1 h2).elim)
      | (rename_i heq; injection heq with h1 h2; subst h1; subst h2; rfl)

theorem splitScheme_ne_nil (l : List Char) : splitScheme l ≠ [] := by
  induction l using splitScheme.induct with
  | case1 => simp [splitScheme]
  | case2 rest ih => simp [splitScheme]
  | case3 c rest hno hnil ih =>
    rw [splitScheme_cons c rest hno, hnil]
    simp
  | case4 c rest hno h t hht ih =>
    rw [splitScheme_cons c rest hno, hht]
    simp

theorem getLastD_irrel {α : Type} (l : List α) (hl : l ≠ []) (d1 d2 : α) :
    l.getLastD d1 = l.getLastD d2 := by
  cases l with
  | nil => exact absurd rfl hl
  | cons x xs => rw [List.getLastD_cons, List.getLastD_cons]

theorem splitScheme_append_sep (s t : List Char) (hs : ∀ c ∈ s, c ≠ ':') :
    2 ≤ (splitScheme (s ++ ':' :: '/' :: '/' :: t)).length ∧
    (splitScheme (s ++ ':' :: '/' :: '/' :: t)).getLastD [] =
      (splitScheme t).getLastD [] := by
  induction s with
  | nil =>
    rw [List.nil_append,
      show splitScheme (':' :: '/' :: '/' :: t) = [] :: splitScheme t from rfl]
    rcases h : splitScheme t with _ | ⟨a, as⟩
    · exact absurd h (splitScheme_ne_nil t)
    · exact ⟨by simp, by rw [List.getLastD_cons]⟩
  | cons c s' ih =>
    have hc : c ≠ ':' := hs c (List.mem_cons_self _ _)
    have hno : ∀ r1 : List Char,
        c = ':' → (s' ++ ':' :: '/' :: '/' :: t) = '/' :: '/' :: r1 → False :=
      fun _ h1 _ => hc h1
    obtain ⟨hlen, hlast⟩ := ih (fun d hd => hs d (List.mem_cons_of_mem _ hd))
    rw [List.cons_append, splitScheme_cons c _ hno]
    rcases hsp : splitScheme (s' ++ ':' :: '/' :: '/' :: t) with _ | ⟨h, tl⟩
    · exact absurd hsp (splitScheme_ne_nil _)
    · rw [hsp] at hlen hlast
      have htl : tl ≠ [] := by
        cases tl with
        | nil => simp at hlen
        | cons u us => simp
      refine ⟨by simpa using hlen, ?_⟩
      rw [List.getLastD_cons] at hlast ⊢
      rw [getLastD_irrel tl htl (c :: h) h]
      exact hlast

theorem pyStrip_scheme (s r : List Char)
    (hs : ∀ c ∈ s, c.isWhitespace = false) :
    pyStrip (s ++ ':' :: '/' :: '/' :: r) =
      s ++ ':' :: '/' :: '/' :: (r.reverse.dropWhile Char.isWhitespace).reverse := by
  unfold pyStrip
  have h1 : (s ++ ':' :: '/' :: '/' :: r).dropWhile Char.isWhitespace =
      s ++ ':' :: '/' :: '/' :: r := by
    cases s with
    | nil =>
      rw [List.nil_append]
      exact List.dropWhile_cons_of_neg (by decide)
    | cons c s' =>
      rw [List.cons_append]
      exact List.dropWhile_cons_of_neg
        (by simp [hs c (List.mem_cons_self _ _)])
  rw [h1]
  have h2 : (s ++ ':' :: '/' :: '/' :: r).reverse =
      r.reverse ++ ('/' :: '/' :: ':' :: s.reverse) := by
    simp
  rw [h2, List.dropWhile_append]
  have h3 : List.dropWhile Char.isWhitespace ('/' :: '/' :: ':' :: s.reverse) =
      '/' :: '/' :: ':' :: s.reverse := List.dropWhile_cons_of_neg (by decide)
  split
  · rename_i hemp
    rw [h3]
    have : List.dropWhile Char.isWhitespace r.reverse = [] := by
      simpa [List.isEmpty_iff] using hemp
    simp [this]
  · simp

theorem safe_name_scheme (s r : List Char)
    (hs : ∀ c ∈ s, c.isWhitespace = false ∧ c ≠ ':') :
    safe_name (s ++ ':' :: '/' :: '/' :: r) =
      (if collapseAux false
            (((splitScheme ((r.reverse.dropWhile Char.isWhitespace).reverse)).getLastD []).take 150) = []
       then "page".data
       else collapseAux false
            (((splitScheme ((r.reverse.dropWhile Char.isWhitespace).reverse)).getLastD []).take 150)) := by
  rw [safe_name_eq_ite, pyStrip_scheme s r (fun c hc => (hs c hc).1),
    (splitScheme_append_sep s _ (fun c hc => (hs c hc).2)).2]

/-- C10: `safe_name` depends only on the part of the (stripped) URL after
the last `"://"`: for any two scheme strings without whitespace or `':'`,
the names agree, and the common value is obtained by taking the last
`"://"`-separated component, truncating it to 150 characters, and only then
substituting unsafe characters. -/
theorem safe_name_scheme_independent (s1 s2 r : List Char)
    (h1 : ∀ c ∈ s1, c.isWhitespace = false ∧ c ≠ ':')
    (h2 : ∀ c ∈ s2, c.isWhitespace = false ∧ c ≠ ':') :
    safe_name (s1 ++ ':' :: '/' :: '/' :: r) =
      safe_name (s2 ++ ':' :: '/' :: '/' :: r) ∧
    safe_name (s1 ++ ':' :: '/' :: '/' :: r) =
      (if collapseAux false
            (((splitScheme ((r.reverse.dropWhile Char.isWhitespace).reverse)).getLastD []).take 150) = []
       then "page".data
       else collapseAux false
            (((splitScheme ((r.reverse.dropWhile Char.isWhitespace).reverse)).getLastD []).take 150)) := by
  refine ⟨?_, safe_name_scheme s1 r h1⟩
  rw [safe_name_scheme s1 r h1, safe_name_scheme s2 r h2]

/-- Witness for scheme independence: `http` vs `https` on a Scholar URL. -/
theorem safe_name_scheme_independent_witness :
    (∀ c ∈ "http".data, c.isWhitespace = false ∧ c ≠ ':') ∧
    (∀ c ∈ "https".data, c.isWhitespace = false ∧ c ≠ ':') ∧
    safe_name ("http".data ++ ':' :: '/' :: '/' :: "scholar.google.com/a?b=1".data) =
      safe_name ("https".data ++ ':' :: '/' :: '/' :: "scholar.google.com/a?b=1".data) := by
  refine ⟨by decide, by decide, ?_⟩
  exact (safe_name_scheme_independent "http".data "https".data
    "scholar.google.com/a?b=1".data (by decide) (by decide)).1

theorem retryLoop_succ_wdErr (i : ℕ) (out : ℕ → Outcome) (cap : ℕ → Bool)
    (n att bo : ℕ) (ho : out (att + 1) = .wdErr) :
    retryLoop i out cap (n + 1) att bo =
      (Ev.nav i (att + 1) :: (if cap (att + 1) then [Ev.reload i] else []) ++
        Ev.sleptBackoff bo :: (retryLoop i out cap n (att + 1) (bo * 2)).1,
       (retryLoop i out cap n (att + 1) (bo * 2)).2) := by
  simp only [retryLoop, ho]

theorem processUrl_eq (i : ℕ) (out : ℕ → Outcome) (cap : ℕ → Bool) :
    processUrl i out cap =
      (Ev.sleptPace i :: (retryLoop i out cap 3 0 3).1,
       (retryLoop i out cap 3 0 3).2) := by
  unfold processUrl
  rcases retryLoop i out cap 3 0 3 with ⟨evs, r⟩
  rfl

theorem urlLoop_cons_eq (out : ℕ → ℕ → Outcome) (cap : ℕ → ℕ → Bool)
    (total re : ℕ) (u : List Char) (rest : List (List Char)) (i : ℕ) :
    urlLoop out cap total re (u :: rest) i =
      match (processUrl i (out i) (cap i)).2 with
      | .error e => ((processUrl i (out i) (cap i)).1, .error e)
      | .ok success =>
        ((processUrl i (out i) (cap i)).1 ++
          (if i % re = 0 ∧ i < total then [Ev.sleptCooldown] else []) ++
          (urlLoop out cap total re rest (i + 1)).1,
         ((urlLoop out cap total re rest (i + 1)).2).map
           (fun arts => (if success then [(i, pageName i u)] else []) ++ arts)) := by
  simp only [urlLoop]

theorem retryLoop_all_wdErr_snd (i : ℕ) (out : ℕ → Outcome) (cap : ℕ → Bool)
    (h : ∀ a, out a = .wdErr) :
    ∀ rem att bo, (retryLoop i out cap rem att bo).2 = .ok false := by
  intro rem
  induction rem with
  | zero => intro att bo; rfl
  | succ n ih =>
    intro att bo
    rw [retryLoop_succ_wdErr i out cap n att bo (h (att + 1))]
    exact ih (att + 1) (bo * 2)

theorem retryLoop_nav_count (i : ℕ) (out : ℕ → Outcome) (cap : ℕ → Bool) :
    ∀ rem att bo, ((retryLoop i out cap rem att bo).1.countP isNav) ≤ rem := by
  intro rem
  induction rem with
  | zero => intro att bo; simp [retryLoop]
  | succ n ih =>
    intro att bo
    cases ho : out (att + 1) with
    | ok =>
      by_cases hc : cap (att + 1) <;>
        simp [retryLoop, ho, hc, List.countP_cons, isNav]
    | fatal =>
      by_cases hc : cap (att + 1) <;>
        simp [retryLoop, ho, hc, List.countP_cons, isNav]
    | wdErr =>
      rw [retryLoop_succ_wdErr i out cap n att bo ho]
      have hcount := ih (att + 1) (bo * 2)
      by_cases hc : cap (att + 1) <;>
        simp [hc, List.countP_cons, List.countP_append, isNav] <;>
        omega

theorem retryLoop_event_kinds (i : ℕ) (out : ℕ → Outcome) (cap : ℕ → Bool) :
    ∀ rem att bo, ∀ e ∈ (retryLoop i out cap rem att bo).1,
      e ≠ Ev.quitDriver ∧ e ≠ Ev.mergedWritten := by
  intro rem
  induction rem with
  | zero => intro att bo e he; simp [retryLoop] at he
  | succ n ih =>
    intro att bo e he
    cases ho : out (att + 1) with
    | ok =>
      by_cases hc : cap (att + 1)
      · simp [retryLoop, ho, hc] at he
        rcases he with rfl | rfl | rfl <;> simp
      · simp [retryLoop, ho, hc] at he
        rcases he with rfl | rfl <;> simp
    | fatal =>
      by_cases hc : cap (att + 1)
      · simp [retryLoop, ho, hc] at he
        rcases he with rfl | rfl <;> simp
      · simp [retryLoop, ho, hc] at he
        subst he
        simp
    | wdErr =>
      rw [retryLoop_succ_wdErr i out cap n att bo ho] at he
      have hrec := ih (att + 1) (bo * 2)
      by_cases hc : cap (att + 1)
      · simp [hc] at he
        rcases he with rfl | rfl | rfl | he
        · simp
        · simp
        · simp
        · exact hrec e he
      · simp [hc] at he
        rcases he with rfl | rfl | he
        · simp
        · simp
        · exact hrec e he

theorem urlLoop_event_kinds (out : ℕ → ℕ → Outcome) (cap : ℕ → ℕ → Bool)
    (total re : ℕ) :
    ∀ us i, ∀ e ∈ (urlLoop out cap total re us i).1,
      e ≠ Ev.quitDriver ∧ e ≠ Ev.mergedWritten := by
  intro us
  induction us with
  | nil => intro i e he; simp [urlLoop] at he
  | cons u rest ih =>
    intro i e he
    rw [urlLoop_cons_eq, processUrl_eq] at he
    have hev1 : ∀ e' ∈ Ev.sleptPace i :: (retryLoop i (out i) (cap i) 3 0 3).1,
        e' ≠ Ev.quitDriver ∧ e' ≠ Ev.mergedWritten := by
      intro e' he'
      cases he' with
      | head => simp
      | tail _ hmem => exact retryLoop_event_kinds i (out i) (cap i) 3 0 3 e' hmem
    cases hr : (retryLoop i (out i) (cap i) 3 0 3).2 with
    | error e1 =>
      rw [hr] at he
      exact hev1 e he
    | ok success =>
      rw [hr] at he
      simp only [List.mem_append] at he
      rcases he with (he | he) | he
      · exact hev1 e he
      · have : e = Ev.sleptCooldown := by split at he <;> simp_all
        subst this
        simp
      · exact ih (i + 1) e he

theorem urlLoop_snd_cap_irrel (out : ℕ → ℕ → Outcome)
    (cap1 cap2 : ℕ → ℕ → Bool) (total re : ℕ) :
    ∀ us i, (urlLoop out cap1 total re us i).2 =
      (urlLoop out cap2 total re us i).2 := by
  have hretry : ∀ i (c1 c2 : ℕ → Bool) rem att bo,
      (retryLoop i (out i) c1 rem att bo).2 =
        (retryLoop i (out i) c2 rem att bo).2 := by
    intro i c1 c2 rem
    induction rem with
    | zero => intro att bo; rfl
    | succ n ih =>
      intro att bo
      cases ho : out i (att + 1) with
      | ok => simp [retryLoop, ho]
      | fatal => simp [retryLoop, ho]
      | wdErr =>
        rw [retryLoop_succ_wdErr _ _ c1 n att bo ho,
          retryLoop_succ_wdErr _ _ c2 n att bo ho]
        exact ih (att + 1) (bo * 2)
  intro us
  induction us with
  | nil => intro i; rfl
  | cons u rest ih =>
    intro i
    rw [urlLoop_cons_eq, urlLoop_cons_eq, processUrl_eq, processUrl_eq]
    rw [hretry i (cap1 i) (cap2 i) 3 0 3]
    cases hr : (retryLoop i (out i) (cap2 i) 3 0 3).2 with
    | error e => rfl
    | ok success =>
      simp only [ih (i + 1)]

/-- C1: the per-URL retry loop makes at most 3 attempts for every outcome
oracle; with 3 consecutive `WebDriverException` failures exactly attempts
1, 2, 3 occur with backoff sleeps of 3, 6 and 12 seconds, no artifact is
recorded and no exception escapes (`Except.ok`); with a failure then a
success exactly 2 attempts occur and one artifact is recorded; and a URL
whose attempts all fail with `WebDriverException` contributes nothing while
the loop continues with the remaining URLs. -/
theorem retry_policy (i : ℕ) (out : ℕ → Outcome) (cap : ℕ → Bool) :
    ((retryLoop i out cap 3 0 3).1.countP isNav ≤ 3) ∧
    ((∀ a, out a = .wdErr) →
      retryLoop i out (fun _ => false) 3 0 3 =
        ([.nav i 1, .sleptBackoff 3, .nav i 2, .sleptBackoff 6,
          .nav i 3, .sleptBackoff 12], .ok false)) ∧
    (out 1 = .wdErr → out 2 = .ok →
      retryLoop i out (fun _ => false) 3 0 3 =
        ([.nav i 1, .sleptBackoff 3, .nav i 2, .captured i], .ok true)) ∧
    (∀ (u : List Char) (rest : List (List Char)) (outs : ℕ → ℕ → Outcome)
        (caps : ℕ → ℕ → Bool) (total re : ℕ),
      (∀ a, outs i a = .wdErr) →
      (urlLoop outs caps total re (u :: rest) i).2 =
        (urlLoop outs caps total re rest (i + 1)).2) := by
  refine ⟨retryLoop_nav_count i out cap 3 0 3, ?_, ?_, ?_⟩
  · intro h
    rw [retryLoop_succ_wdErr i out (fun _ => false) 2 0 3 (h 1),
      retryLoop_succ_wdErr i out (fun _ => false) 1 1 6 (h 2),
      retryLoop_succ_wdErr i out (fun _ => false) 0 2 12 (h 3)]
    simp [retryLoop]
  · intro h1 h2
    rw [retryLoop_succ_wdErr i out (fun _ => false) 2 0 3 h1]
    simp [retryLoop, h2]
  · intro u rest outs caps total re h
    rw [urlLoop_cons_eq, processUrl_eq]
    rw [retryLoop_all_wdErr_snd i (outs i) (caps i) h 3 0 3]
    simp only
    cases hu : (urlLoop outs caps total re rest (i + 1)).2 with
    | error e => simp [Except.map]
    | ok arts => simp [Except.map]

/-- Witness for the retry-policy theorem: all attempts fail. -/
theorem retry_policy_witness :
    (∀ a, (fun _ : ℕ => Outcome.wdErr) a = Outcome.wdErr) ∧
    retryLoop 1 (fun _ => Outcome.wdErr) (fun _ => false) 3 0 3 =
      ([.nav 1 1, .sleptBackoff 3, .nav 1 2, .sleptBackoff 6,
        .nav 1 3, .sleptBackoff 12], .ok false) :=
  ⟨fun _ => rfl,
    (retry_policy 1 (fun _ => Outcome.wdErr) (fun _ => false)).2.1 fun _ => rfl⟩

/-- C5: whenever the URL list is nonempty (so the browser session is
created), the run's trace contains exactly one `driver.quit()` event, on
every execution path: normal completion, any number of skipped URLs, or an
exception propagating out of the loop. -/
theorem session_closed_exactly_once (urls : List (List Char))
    (out : ℕ → ℕ → Outcome) (cap : ℕ → ℕ → Bool) (re : ℕ)
    (h : urls ≠ []) :
    (mainRun urls out cap re).trace.count Ev.quitDriver = 1 := by
  unfold mainRun
  rw [if_neg h]
  rcases hl : urlLoop out cap urls.length re urls 1 with ⟨evs, r⟩
  have hev : Ev.quitDriver ∉ evs := by
    intro hmem
    have := urlLoop_event_kinds out cap urls.length re urls 1 Ev.quitDriver
      (by rw [hl]; exact hmem)
    exact this.1 rfl
  have hz : evs.count Ev.quitDriver = 0 := List.count_eq_zero.mpr hev
  cases r with
  | error e =>
    simp [List.count_append, hz]
  | ok arts =>
    by_cases ha : arts = [] <;>
      simp [ha, List.count_append, List.count_cons, hz]

/-- Witness for the session-closing theorem: a one-URL run whose capture
succeeds. -/
theorem session_closed_exactly_once_witness :
    ([['a']] : List (List Char)) ≠ [] ∧
    (mainRun [['a']] (fun _ _ => Outcome.ok) (fun _ _ => false) 10).trace.count
      Ev.quitDriver = 1 :=
  ⟨by simp,
    session_closed_exactly_once [['a']] (fun _ _ => Outcome.ok)
      (fun _ _ => false) 10 (by simp)⟩

/-- C6: the run's exit conditions are mutually exclusive: an empty URL list
exits with status 1 before any browser work (the trace is just that exit);
a completed loop with zero artifacts exits with status 2 and writes no
merged document; a completed loop with artifacts ends with the merged
document written. -/
theorem run_exit_conditions (urls : List (List Char)) (out : ℕ → ℕ → Outcome)
    (cap : ℕ → ℕ → Bool) (re : ℕ) :
    (urls = [] → mainRun urls out cap re = ⟨[Ev.exited 1], .exit1, []⟩) ∧
    (urls ≠ [] → ∀ evs arts,
      urlLoop out cap urls.length re urls 1 = (evs, .ok arts) →
      ((arts = [] →
          mainRun urls out cap re = ⟨evs ++ [Ev.quitDriver, Ev.exited 2], .exit2, []⟩ ∧
          Ev.mergedWritten ∉ (mainRun urls out cap re).trace) ∧
       (arts ≠ [] →
          mainRun urls out cap re = ⟨evs ++ [Ev.quitDriver, Ev.mergedWritten], .normal, arts⟩ ∧
          (mainRun urls out cap re).trace.getLast? = some Ev.mergedWritten))) := by
  constructor
  · intro h
    unfold mainRun
    rw [if_pos h]
  · intro h evs arts hl
    have hnomerge : Ev.mergedWritten ∉ evs := by
      intro hmem
      have := urlLoop_event_kinds out cap urls.length re urls 1 Ev.mergedWritten
        (by rw [hl]; exact hmem)
      exact this.2 rfl
    constructor
    · intro ha
      subst ha
      have hrun : mainRun urls out cap re =
          ⟨evs ++ [Ev.quitDriver, Ev.exited 2], .exit2, []⟩ := by
        unfold mainRun
        rw [if_neg h, hl]
        simp
      refine ⟨hrun, ?_⟩
      rw [hrun]
      simp only [List.mem_append, List.mem_cons, List.mem_singleton]
      rintro (hmem | hmem | hmem | hmem) <;> simp_all
    · intro ha
      have hrun : mainRun urls out cap re =
          ⟨evs ++ [Ev.quitDriver, Ev.mergedWritten], .normal, arts⟩ := by
        unfold mainRun
        rw [if_neg h, hl]
        simp [ha]
      refine ⟨hrun, ?_⟩
      rw [hrun]
      rw [show evs ++ [Ev.quitDriver, Ev.mergedWritten] =
        (evs ++ [Ev.quitDriver]) ++ [Ev.mergedWritten] by simp]
      simp

/-- Witness for the exit-condition theorem: the empty URL list exits early
with status 1. -/
theorem run_exit_conditions_witness :
    ([] : List (List Char)) = [] ∧
    mainRun [] (fun _ _ => Outcome.ok) (fun _ _ => false) 10 =
      ⟨[Ev.exited 1], .exit1, []⟩ :=
  ⟨rfl, (run_exit_conditions [] (fun _ _ => Outcome.ok)
    (fun _ _ => false) 10).1 rfl⟩

theorem captchaPollAux_spec (still : ℕ → Check) (endT : ℕ) :
    ∀ fuel now b ts, captchaPollAux still endT fuel now = .ok (b, ts) →
      b = true ∧
      ts = List.map (fun j => now + 3 * (j + 1)) (List.range ts.length) ∧
      ∀ t ∈ ts, t < endT + 3 := by
  intro fuel
  induction fuel with
  | zero =>
    intro now b ts h
    simp only [captchaPollAux, Except.ok.injEq, Prod.mk.injEq] at h
    obtain ⟨rfl, rfl⟩ := h
    simp
  | succ n ih =>
    intro now b ts h
    simp only [captchaPollAux] at h
    by_cases hn : now < endT
    · rw [if_pos hn] at h
      cases hs : still (now + 3) with
      | error e => rw [hs] at h; cases h
      | ok v =>
        rw [hs] at h
        cases v with
        | true =>
          cases hrec : captchaPollAux still endT n (now + 3) with
          | error e => rw [hrec] at h; cases h
          | ok p =>
            rcases p with ⟨b', ts'⟩
            rw [hrec] at h
            simp only [Except.ok.injEq, Prod.mk.injEq] at h
            obtain ⟨rfl, rfl⟩ := h
            obtain ⟨rfl, hts, hlt⟩ := ih (now + 3) b' ts' hrec
            refine ⟨rfl, ?_, ?_⟩
            · conv_lhs => rw [hts]
              rw [List.length_cons, List.range_succ_eq_map, List.map_cons,
                List.map_map]
              congr 1
              apply List.map_congr_left
              intro j _
              simp only [Function.comp_apply]
              omega
            · intro t ht
              simp only [List.mem_cons] at ht
              rcases ht with rfl | ht
              · omega
              · exact hlt t ht
        | false =>
          simp only [Except.ok.injEq, Prod.mk.injEq] at h
          obtain ⟨rfl, rfl⟩ := h
          refine ⟨rfl, by norm_num [List.range_succ], ?_⟩
          intro t ht
          rcases List.mem_singleton.mp ht with rfl
          omega
    · rw [if_neg hn] at h
      simp only [Except.ok.injEq, Prod.mk.injEq] at h
      obtain ⟨rfl, rfl⟩ := h
      simp

/-- C9: the CAPTCHA poll loop checks at a fixed 3-second interval, each
check time within the timeout window, and always returns `true` (cleared or
timed out alike); `maybe_wait_for_captcha` returns `true` exactly when a
CAPTCHA was detected and the poll ran without a browser exception (an
exception yields `false`, never a raised error); on a successful attempt
the retry loop reloads the URL exactly when the CAPTCHA wait reported a
challenge, then proceeds to capture; and the CAPTCHA oracle never changes
the run's exit status or artifacts. -/
theorem captcha_wait_nonfatal (present0 : Check) (still : ℕ → Check) (T : ℕ) :
    (∀ b ts, captchaPoll still 0 T = .ok (b, ts) →
      b = true ∧
      ts = List.map (fun j => 3 * (j + 1)) (List.range ts.length) ∧
      ∀ t ∈ ts, t < T + 3) ∧
    (maybe_wait_for_captcha present0 still T = true ↔
      (present0 = .ok true ∧ ∃ ts, captchaPoll still 0 T = .ok (true, ts))) ∧
    (∀ (i : ℕ) (out : ℕ → Outcome) (cap : ℕ → Bool) (n att bo : ℕ),
      out (att + 1) = .ok →
      retryLoop i out cap (n + 1) att bo =
        (Ev.nav i (att + 1) :: (if cap (att + 1) then [Ev.reload i] else []) ++
          [Ev.captured i], .ok true)) ∧
    (∀ (urls : List (List Char)) (out : ℕ → ℕ → Outcome)
        (cap1 cap2 : ℕ → ℕ → Bool) (re : ℕ),
      (mainRun urls out cap1 re).exit = (mainRun urls out cap2 re).exit ∧
      (mainRun urls out cap1 re).artifacts = (mainRun urls out cap2 re).artifacts) := by
  refine ⟨?_, ?_, ?_, ?_⟩
  · intro b ts h
    obtain ⟨hb, hts, hlt⟩ := captchaPollAux_spec still T (T - 0) 0 b ts h
    refine ⟨hb, ?_, hlt⟩
    simpa using hts
  · unfold maybe_wait_for_captcha
    cases present0 with
    | error e => simp
    | ok v =>
      cases v with
      | false => simp
      | true =>
        cases hp : captchaPoll still 0 T with
        | error e => simp [hp]
        | ok p =>
          rcases p with ⟨b, ts⟩
          obtain ⟨rfl, -, -⟩ := captchaPollAux_spec still T (T - 0) 0 b ts hp
          simp only [hp, true_iff]
          exact ⟨trivial, ts, rfl⟩
  · intro i out cap n att bo ho
    simp [retryLoop, ho]
  · intro urls out cap1 cap2 re
    unfold mainRun
    by_cases h : urls = []
    · rw [if_pos h, if_pos h]
      exact ⟨rfl, rfl⟩
    · rw [if_neg h, if_neg h]
      rcases h1 : urlLoop out cap1 urls.length re urls 1 with ⟨e1, r1⟩
      rcases h2 : urlLoop out cap2 urls.length re urls 1 with ⟨e2, r2⟩
      have hr : r1 = r2 := by
        have := urlLoop_snd_cap_irrel out cap1 cap2 urls.length re urls 1
        rw [h1, h2] at this
        exact this
      subst hr
      cases r1 with
      | error e => exact ⟨rfl, rfl⟩
      | ok arts =>
        by_cases ha : arts = [] <;> simp [ha]

/-- Witness for the CAPTCHA theorem: a detected challenge that clears at
the first poll, with a reloading successful attempt. -/
theorem captcha_wait_nonfatal_witness :
    ((fun _ : ℕ => (Outcome.ok : Outcome)) (0 + 1) = Outcome.ok) ∧
    retryLoop 0 (fun _ => Outcome.ok) (fun _ => true) (0 + 1) 0 3 =
      (Ev.nav 0 1 :: (if (fun _ : ℕ => true) (0 + 1) then [Ev.reload 0] else []) ++
        [Ev.captured 0], .ok true) :=
  ⟨rfl, (captcha_wait_nonfatal (.ok true) (fun _ => .ok false) 9).2.2.1
    0 (fun _ => Outcome.ok) (fun _ => true) 0 0 3 rfl⟩

/-! ### Round-trip lemmas for the query-string machinery -/

theorem safeByte_facts (b : ℕ) (h : safeByte b = true) :
    b ≠ 43 ∧ b ≠ 37 ∧ b ≠ 38 ∧ b ≠ 61 ∧ b ≠ 32 := by
  refine ⟨?_, ?_, ?_, ?_, ?_⟩ <;> (rintro rfl; revert h; decide)

theorem hexDig_spec : ∀ d < 16, isHexB (hexDig d) = true ∧ hexVal (hexDig d) = d := by
  decide

theorem hexDig_byte_range : ∀ d < 16, hexDig d ≠ 38 ∧ hexDig d ≠ 61 ∧ hexDig d < 256 := by
  decide

theorem hexVal_lt_16 (b : ℕ) (h : isHexB b = true) : hexVal b < 16 := by
  simp only [isHexB, isAsciiDigitB, Bool.or_eq_true, Bool.and_eq_true,
    decide_eq_true_eq] at h
  unfold hexVal
  split
  · omega
  · split <;> omega

theorem unquote_plus_cons_other (b : ℕ) (h43 : b ≠ 43) (h37 : b ≠ 37)
    (rest : List ℕ) : unquote_plus (b :: rest) = b :: unquote_plus rest := by
  rw [unquote_plus.eq_def]
  split <;>
    first
      | rfl
      | (rename_i heq; exact absurd heq (List.cons_ne_nil _ _))
      | (rename_i heq; injection heq with hh ht; exact absurd hh h43)
      | (rename_i heq; injection heq with hh ht; exact absurd hh h37)
      | (rename_i heq; injection heq with hh ht; subst hh; subst ht; rfl)

theorem quoteByte_ne_nil (b : ℕ) : quoteByte b ≠ [] := by
  unfold quoteByte
  split
  · simp
  · split <;> simp

theorem unquote_quoteByte (b : ℕ) (hb : b < 256) (rest : List ℕ) :
    unquote_plus (quoteByte b ++ rest) = b :: unquote_plus rest := by
  unfold quoteByte
  by_cases hs : safeByte b
  · rw [if_pos hs]
    obtain ⟨h43, h37, -, -, -⟩ := safeByte_facts b hs
    simpa using unquote_plus_cons_other b h43 h37 rest
  · rw [if_neg hs]
    by_cases h32 : b = 32
    · subst h32
      rw [if_pos rfl]
      rfl
    · rw [if_neg h32]
      have hdiv : b / 16 < 16 := by omega
      have hmod : b % 16 < 16 := by omega
      obtain ⟨hhex1, hval1⟩ := hexDig_spec _ hdiv
      obtain ⟨hhex2, hval2⟩ := hexDig_spec _ hmod
      rw [show ([37, hexDig (b / 16), hexDig (b % 16)] ++ rest) =
        37 :: hexDig (b / 16) :: hexDig (b % 16) :: rest from rfl]
      rw [show unquote_plus (37 :: hexDig (b / 16) :: hexDig (b % 16) :: rest) =
        if isHexB (hexDig (b / 16)) = true ∧ isHexB (hexDig (b % 16)) = true
        then (hexVal (hexDig (b / 16)) * 16 + hexVal (hexDig (b % 16))) ::
          unquote_plus rest
        else 37 :: unquote_plus (hexDig (b / 16) :: hexDig (b % 16) :: rest)
        from rfl]
      rw [if_pos ⟨hhex1, hhex2⟩, hval1, hval2]
      congr 1
      omega

theorem quote_plus_cons (b : ℕ) (tail : List ℕ) :
    quote_plus (b :: tail) = quoteByte b ++ quote_plus tail := by
  simp [quote_plus]

theorem unquote_quote_append (s : List ℕ) (h : ∀ b ∈ s, b < 256)
    (rest : List ℕ) :
    unquote_plus (quote_plus s ++ rest) = s ++ unquote_plus rest := by
  induction s with
  | nil => simp [quote_plus]
  | cons b tail ih =>
    rw [quote_plus_cons, List.append_assoc,
      unquote_quoteByte b (h b (List.mem_cons_self _ _)) _,
      ih (fun x hx => h x (List.mem_cons_of_mem _ hx))]
    simp

theorem unquote_quote (s : List ℕ) (h : ∀ b ∈ s, b < 256) :
    unquote_plus (quote_plus s) = s := by
  have h0 := unquote_quote_append s h []
  rw [List.append_nil] at h0
  rw [h0, show unquote_plus [] = [] from rfl, List.append_nil]

theorem quoteByte_avoid (b : ℕ) (hb : b < 256) :
    ∀ x ∈ quoteByte b, x ≠ 38 ∧ x ≠ 61 := by
  intro x hx
  unfold quoteByte at hx
  by_cases hs : safeByte b
  · rw [if_pos hs] at hx
    obtain ⟨-, -, h38, h61, -⟩ := safeByte_facts b hs
    rcases List.mem_singleton.mp hx with rfl
    exact ⟨h38, h61⟩
  · rw [if_neg hs] at hx
    by_cases h32 : b = 32
    · rw [if_pos h32] at hx
      rcases List.mem_singleton.mp hx with rfl
      exact ⟨by decide, by decide⟩
    · rw [if_neg h32] at hx
      have hdiv : b / 16 < 16 := by omega
      have hmod : b % 16 < 16 := by omega
      obtain ⟨hd38, hd61, -⟩ := hexDig_byte_range _ hdiv
      obtain ⟨hm38, hm61, -⟩ := hexDig_byte_range _ hmod
      simp only [List.mem_cons, List.not_mem_nil, or_false] at hx
      rcases hx with rfl | rfl | rfl
      · exact ⟨by decide, by decide⟩
      · exact ⟨hd38, hd61⟩
      · exact ⟨hm38, hm61⟩

theorem quote_plus_avoid (s : List ℕ) (h : ∀ b ∈ s, b < 256) :
    ∀ x ∈ quote_plus s, x ≠ 38 ∧ x ≠ 61 := by
  intro x hx
  rcases List.mem_flatten.mp hx with ⟨part, hpart, hxin⟩
  rcases List.mem_map.mp hpart with ⟨b, hb, rfl⟩
  exact quoteByte_avoid b (h b hb) x hxin

theorem quote_plus_ne_nil (s : List ℕ) (h : s ≠ []) : quote_plus s ≠ [] := by
  cases s with
  | nil => exact absurd rfl h
  | cons b tail =>
    rw [quote_plus_cons]
    intro hcontra
    exact quoteByte_ne_nil b (List.append_eq_nil.mp hcontra).1

theorem unquote_plus_ne_nil (l : List ℕ) (h : l ≠ []) :
    unquote_plus l ≠ [] := by
  rw [unquote_plus.eq_def]
  split
  · exact absurd rfl h
  · simp
  · split <;> simp
  · simp

theorem unquote_plus_lt (l : List ℕ) (h : ∀ b ∈ l, b < 256) :
    ∀ x ∈ unquote_plus l, x < 256 := by
  induction l using unquote_plus.induct with
  | case1 => simp [unquote_plus]
  | case2 rest ih =>
    intro x hx
    rw [show unquote_plus (43 :: rest) = 32 :: unquote_plus rest from rfl] at hx
    rcases List.mem_cons.mp hx with rfl | hx
    · omega
    · exact ih (fun b hb => h b (List.mem_cons_of_mem _ hb)) x hx
  | case3 h1 h2 rest hhex ih =>
    intro x hx
    rw [show unquote_plus (37 :: h1 :: h2 :: rest) =
      if isHexB h1 = true ∧ isHexB h2 = true
      then (hexVal h1 * 16 + hexVal h2) :: unquote_plus rest
      else 37 :: unquote_plus (h1 :: h2 :: rest) from rfl, if_pos hhex] at hx
    rcases List.mem_cons.mp hx with rfl | hx
    · have := hexVal_lt_16 h1 hhex.1
      have := hexVal_lt_16 h2 hhex.2
      omega
    · refine ih (fun b hb => h b ?_) x hx
      simp only [List.mem_cons] at hb ⊢
      tauto
  | case4 h1 h2 rest hhex ih =>
    intro x hx
    rw [show unquote_plus (37 :: h1 :: h2 :: rest) =
      if isHexB h1 = true ∧ isHexB h2 = true
      then (hexVal h1 * 16 + hexVal h2) :: unquote_plus rest
      else 37 :: unquote_plus (h1 :: h2 :: rest) from rfl, if_neg hhex] at hx
    rcases List.mem_cons.mp hx with rfl | hx
    · omega
    · refine ih (fun b hb => h b ?_) x hx
      simp only [List.mem_cons] at hb ⊢
      tauto
  | case5 b rest hno43 hno37 ih =>
    intro x hx
    have heqn : unquote_plus (b :: rest) = b :: unquote_plus rest := by
      rw [unquote_plus.eq_def]
      split <;>
        first
          | (rename_i heq; exact absurd heq (List.cons_ne_nil _ _))
          | (rename_i heq; injection heq with hh ht; exact (hno43 hh).elim)
          | (rename_i heq; injection heq with hh ht; subst ht;
             exact (hno37 _ _ _ hh rfl).elim)
          | (rename_i heq; injection heq with hh ht; subst hh; subst ht; rfl)
    rw [heqn] at hx
    rcases List.mem_cons.mp hx with rfl | hx
    · exact h x (List.mem_cons_self _ _)
    · exact ih (fun c hc => h c (List.mem_cons_of_mem _ hc)) x hx

theorem intercalate_sep_single (sep : ℕ) (f : List ℕ) :
    List.intercalate [sep] [f] = f := by
  simp [List.intercalate]

theorem intercalate_sep_cons (sep : ℕ) (f g : List ℕ) (t : List (List ℕ)) :
    List.intercalate [sep] (f :: g :: t) =
      f ++ sep :: List.intercalate [sep] (g :: t) := by
  simp [List.intercalate, List.intersperse]

theorem splitOnByte_no_sep (sep : ℕ) (f : List ℕ) (h : sep ∉ f) :
    splitOnByte sep f = [f] := by
  induction f with
  | nil => rfl
  | cons b rest ih =>
    have hb : b ≠ sep := fun hbs => h (hbs ▸ List.mem_cons_self _ _)
    rw [show splitOnByte sep (b :: rest) =
      (if b = sep then [] :: splitOnByte sep rest
       else
         match splitOnByte sep rest with
         | [] => [[b]]
         | h :: t => (b :: h) :: t) from rfl]
    rw [if_neg hb, ih (fun hm => h (List.mem_cons_of_mem _ hm))]

theorem splitOnByte_append_sep (sep : ℕ) (f rest : List ℕ) (h : sep ∉ f) :
    splitOnByte sep (f ++ sep :: rest) = f :: splitOnByte sep rest := by
  induction f with
  | nil =>
    rw [List.nil_append]
    rw [show splitOnByte sep (sep :: rest) =
      (if sep = sep then [] :: splitOnByte sep rest
       else
         match splitOnByte sep rest with
         | [] => [[sep]]
         | h :: t => (sep :: h) :: t) from rfl]
    rw [if_pos rfl]
  | cons b f' ih =>
    have hb : b ≠ sep := fun hbs => h (hbs ▸ List.mem_cons_self _ _)
    rw [List.cons_append]
    rw [show splitOnByte sep (b :: (f' ++ sep :: rest)) =
      (if b = sep then [] :: splitOnByte sep (f' ++ sep :: rest)
       else
         match splitOnByte sep (f' ++ sep :: rest) with
         | [] => [[b]]
         | h :: t => (b :: h) :: t) from rfl]
    rw [if_neg hb, ih (fun hm => h (List.mem_cons_of_mem _ hm))]

theorem splitOnByte_intercalate (sep : ℕ) (fields : List (List ℕ))
    (hne : fields ≠ []) (h : ∀ f ∈ fields, sep ∉ f) :
    splitOnByte sep (List.intercalate [sep] fields) = fields := by
  induction fields with
  | nil => exact absurd rfl hne
  | cons f t ih =>
    cases t with
    | nil =>
      rw [intercalate_sep_single,
        splitOnByte_no_sep sep f (h f (List.mem_cons_self _ _))]
    | cons g t' =>
      rw [intercalate_sep_cons,
        splitOnByte_append_sep sep f _ (h f (List.mem_cons_self _ _)),
        ih (List.cons_ne_nil _ _) (fun x hx => h x (List.mem_cons_of_mem _ hx))]

theorem splitFirstEq_append (a b : List ℕ) (h : (61:ℕ) ∉ a) :
    splitFirstEq (a ++ 61 :: b) = some (a, b) := by
  induction a with
  | nil => simp [splitFirstEq]
  | cons c a' ih =>
    have hc : c ≠ 61 := fun hcs => h (hcs ▸ List.mem_cons_self _ _)
    rw [List.cons_append,
      show splitFirstEq (c :: (a' ++ 61 :: b)) =
        (if c = 61 then some ([], a' ++ 61 :: b)
         else (splitFirstEq (a' ++ 61 :: b)).map (fun p => (c :: p.1, p.2)))
        from rfl,
      if_neg hc, ih (fun hm => h (List.mem_cons_of_mem _ hm))]
    rfl

theorem parseField_encodes (k v : List ℕ) (hk : ∀ b ∈ k, b < 256)
    (hv : ∀ b ∈ v, b < 256) (hvne : v ≠ []) :
    parseField (quote_plus k ++ 61 :: quote_plus v) = some (k, v) := by
  unfold parseField
  rw [splitFirstEq_append _ _ (fun hm => (quote_plus_avoid k hk 61 hm).2 rfl)]
  dsimp only
  rw [if_neg (quote_plus_ne_nil v hvne)]
  rw [unquote_quote k hk, unquote_quote v hv]

theorem filterMap_all_some {α β : Type} (f : α → Option β) (g : α → β)
    (l : List α) (h : ∀ a ∈ l, f a = some (g a)) :
    l.filterMap f = l.map g := by
  induction l with
  | nil => rfl
  | cons a t ih =>
    rw [List.filterMap_cons, h a (List.mem_cons_self _ _), List.map_cons,
      ih (fun x hx => h x (List.mem_cons_of_mem _ hx))]

theorem parse_qsl_urlencodeFirst (d : QDict)
    (hd : ∀ kv ∈ d, (∀ b ∈ kv.1, b < 256) ∧
      (∀ b ∈ kv.2.headD [], b < 256) ∧ kv.2.headD [] ≠ []) :
    parse_qsl (urlencodeFirst d) =
      d.map (fun kv => (kv.1, kv.2.headD [])) := by
  cases d with
  | nil => rfl
  | cons kv0 t =>
    unfold parse_qsl urlencodeFirst
    rw [splitOnByte_intercalate 38 _ (by simp) ?hno38]
    case hno38 =>
      intro f hf hmem
      rcases List.mem_map.mp hf with ⟨kv, hkv, rfl⟩
      obtain ⟨hk, hv, -⟩ := hd kv hkv
      rcases List.mem_append.mp hmem with hm | hm
      · exact (quote_plus_avoid kv.1 hk 38 hm).1 rfl
      · rcases List.mem_cons.mp hm with h61 | hm
        · exact absurd h61.symm (by decide)
        · exact (quote_plus_avoid _ hv 38 hm).1 rfl
    rw [List.filterMap_map]
    apply filterMap_all_some
    intro kv hkv
    obtain ⟨hk, hv, hvne⟩ := hd kv hkv
    exact parseField_encodes kv.1 _ hk hv hvne

theorem dictAppend_keys (d : QDict) (k : List ℕ) (v : List ℕ) :
    (dictAppend d k v).map Prod.fst =
      if k ∈ d.map Prod.fst then d.map Prod.fst else d.map Prod.fst ++ [k] := by
  induction d with
  | nil => simp [dictAppend]
  | cons kv rest ih =>
    rcases kv with ⟨k', vs⟩
    by_cases hk : k' = k
    · subst hk
      simp [dictAppend]
    · simp only [dictAppend, if_neg hk, List.map_cons, ih]
      have : k ∈ k' :: rest.map Prod.fst ↔ k ∈ rest.map Prod.fst := by
        simp [Ne.symm hk]
      by_cases hmem : k ∈ rest.map Prod.fst <;> simp [hmem, this]

theorem dictSet_keys (d : QDict) (k : List ℕ) (v : List (List ℕ)) :
    (dictSet d k v).map Prod.fst =
      if k ∈ d.map Prod.fst then d.map Prod.fst else d.map Prod.fst ++ [k] := by
  induction d with
  | nil => simp [dictSet]
  | cons kv rest ih =>
    rcases kv with ⟨k', vs⟩
    by_cases hk : k' = k
    · subst hk
      simp [dictSet]
    · simp only [dictSet, if_neg hk, List.map_cons, ih]
      have : k ∈ k' :: rest.map Prod.fst ↔ k ∈ rest.map Prod.fst := by
        simp [Ne.symm hk]
      by_cases hmem : k ∈ rest.map Prod.fst <;> simp [hmem, this]

theorem dictAppend_not_mem (d : QDict) (k : List ℕ) (v : List ℕ)
    (h : k ∉ d.map Prod.fst) : dictAppend d k v = d ++ [(k, [v])] := by
  induction d with
  | nil => rfl
  | cons kv rest ih =>
    rcases kv with ⟨k', vs⟩
    have hk : k' ≠ k := by
      intro hrfl
      exact h (by simp [hrfl])
    simp only [dictAppend, if_neg hk, List.cons_append]
    rw [ih (fun hm => h (by simp [hm]))]

theorem foldl_dictAppend_fresh (l : List (List ℕ × List ℕ)) :
    ∀ acc : QDict, (l.map Prod.fst).Nodup →
      (∀ k ∈ l.map Prod.fst, k ∉ acc.map Prod.fst) →
      l.foldl (fun d kv => dictAppend d kv.1 kv.2) acc =
        acc ++ l.map (fun kv => (kv.1, [kv.2])) := by
  induction l with
  | nil => intro acc _ _; simp
  | cons kv rest ih =>
    intro acc hnodup hfresh
    rcases kv with ⟨k, v⟩
    simp only [List.foldl_cons]
    rw [dictAppend_not_mem acc k v (hfresh k (by simp))]
    rw [ih (acc ++ [(k, [v])]) (by simpa using hnodup.of_cons) ?fresh2]
    · simp
    case fresh2 =>
      intro k' hk' hmem
      simp only [List.map_append, List.mem_append] at hmem
      rcases hmem with hmem | hmem
      · exact hfresh k' (by simp [hk']) hmem
      · simp only [List.map_cons, List.map_nil, List.mem_singleton] at hmem
        have hnd : (k :: rest.map Prod.fst).Nodup := by simpa using hnodup
        rw [hmem] at hk'
        exact (List.nodup_cons.mp hnd).1 hk'

theorem dictFind_dictSet_self (d : QDict) (k : List ℕ) (v : List (List ℕ)) :
    dictFind (dictSet d k v) k = some v := by
  induction d with
  | nil => simp [dictSet, dictFind]
  | cons kv rest ih =>
    rcases kv with ⟨k', vs⟩
    by_cases hk : k' = k
    · subst hk
      simp [dictSet, dictFind]
    · simp [dictSet, dictFind, hk, ih]

theorem dictFind_dictSet_other (d : QDict) (k k' : List ℕ)
    (v : List (List ℕ)) (h : k' ≠ k) :
    dictFind (dictSet d k v) k' = dictFind d k' := by
  induction d with
  | nil => simp [dictSet, dictFind, Ne.symm h]
  | cons kv rest ih =>
    rcases kv with ⟨k0, vs⟩
    by_cases hk : k0 = k
    · subst hk
      simp [dictSet, dictFind, Ne.symm h]
    · by_cases hk' : k0 = k'
      · subst hk'
        simp [dictSet, dictFind, hk]
      · simp [dictSet, dictFind, hk, hk', ih]

theorem dictFind_map_headD (d : QDict) (k : List ℕ) :
    dictFind (d.map (fun kv => (kv.1, [kv.2.headD []]))) k =
      (dictFind d k).map (fun vs => [vs.headD []]) := by
  induction d with
  | nil => simp [dictFind]
  | cons kv rest ih =>
    rcases kv with ⟨k0, vs⟩
    rw [List.map_cons]
    rw [show dictFind
        ((k0, [vs.headD []]) :: rest.map (fun kv => (kv.1, [kv.2.headD []]))) k =
      (if k0 = k then some [vs.headD []]
       else dictFind (rest.map (fun kv => (kv.1, [kv.2.headD []]))) k)
      from rfl]
    rw [show dictFind ((k0, vs) :: rest) k =
      (if k0 = k then some vs else dictFind rest k) from rfl]
    by_cases hk : k0 = k
    · rw [if_pos hk, if_pos hk]
      rfl
    · rw [if_neg hk, if_neg hk]
      exact ih

theorem natStrAux_bytes : ∀ fuel n : ℕ, ∀ b ∈ natStrAux fuel n,
    48 ≤ b ∧ b ≤ 57 := by
  intro fuel
  induction fuel with
  | zero => intro n b hb; simp [natStrAux] at hb
  | succ f ih =>
    intro n b hb
    simp only [natStrAux] at hb
    split at hb
    · rcases List.mem_singleton.mp hb with rfl
      omega
    · rcases List.mem_append.mp hb with hb | hb
      · exact ih (n / 10) b hb
      · rcases List.mem_singleton.mp hb with rfl
        omega

theorem natStr_ne_nil (n : ℕ) : natStr n ≠ [] := by
  unfold natStr natStrAux
  split
  · simp
  · simp

theorem intStr_bytes (s : ℤ) : ∀ b ∈ intStr s, b < 256 := by
  intro b hb
  unfold intStr at hb
  split at hb
  · rcases List.mem_cons.mp hb with rfl | hb
    · omega
    · have := natStrAux_bytes _ _ b hb
      omega
  · have := natStrAux_bytes _ _ b hb
    omega

theorem intStr_ne_nil (s : ℤ) : intStr s ≠ [] := by
  unfold intStr
  split
  · simp
  · exact natStr_ne_nil _

theorem splitOnByte_ne_nil (sep : ℕ) (l : List ℕ) :
    splitOnByte sep l ≠ [] := by
  cases l with
  | nil => simp [splitOnByte]
  | cons b rest =>
    rw [show splitOnByte sep (b :: rest) =
      (if b = sep then [] :: splitOnByte sep rest
       else
         match splitOnByte sep rest with
         | [] => [[b]]
         | h :: t => (b :: h) :: t) from rfl]
    split
    · simp
    · split <;> simp

theorem splitOnByte_mem_subset (sep : ℕ) :
    ∀ l f, f ∈ splitOnByte sep l → ∀ x ∈ f, x ∈ l := by
  intro l
  induction l with
  | nil =>
    intro f hf x hx
    simp [splitOnByte] at hf
    subst hf
    simp at hx
  | cons b rest ih =>
    intro f hf x hx
    rw [show splitOnByte sep (b :: rest) =
      (if b = sep then [] :: splitOnByte sep rest
       else
         match splitOnByte sep rest with
         | [] => [[b]]
         | h :: t => (b :: h) :: t) from rfl] at hf
    split at hf
    · rcases List.mem_cons.mp hf with rfl | hf
      · simp at hx
      · exact List.mem_cons_of_mem _ (ih f hf x hx)
    · rcases hs : splitOnByte sep rest with _ | ⟨h0, t0⟩
      · exact absurd hs (splitOnByte_ne_nil sep rest)
      · rw [hs] at hf
        rcases List.mem_cons.mp hf with rfl | hf
        · rcases List.mem_cons.mp hx with rfl | hx
          · exact List.mem_cons_self _ _
          · have : h0 ∈ splitOnByte sep rest := by rw [hs]; exact List.mem_cons_self _ _
            exact List.mem_cons_of_mem _ (ih h0 this x hx)
        · have : f ∈ splitOnByte sep rest := by rw [hs]; exact List.mem_cons_of_mem _ hf
          exact List.mem_cons_of_mem _ (ih f this x hx)

theorem splitFirstEq_parts :
    ∀ l a b, splitFirstEq l = some (a, b) →
      (∀ x ∈ a, x ∈ l) ∧ (∀ x ∈ b, x ∈ l) := by
  intro l
  induction l with
  | nil => intro a b h; simp [splitFirstEq] at h
  | cons c rest ih =>
    intro a b h
    rw [show splitFirstEq (c :: rest) =
      (if c = 61 then some ([], rest)
       else (splitFirstEq rest).map (fun p => (c :: p.1, p.2))) from rfl] at h
    split at h
    · simp only [Option.some.injEq, Prod.mk.injEq] at h
      obtain ⟨rfl, rfl⟩ := h
      exact ⟨by simp, fun x hx => List.mem_cons_of_mem _ hx⟩
    · cases hs : splitFirstEq rest with
      | none => rw [hs] at h; simp at h
      | some p =>
        rcases p with ⟨a0, b0⟩
        rw [hs] at h
        simp only [Option.map_some', Option.some.injEq, Prod.mk.injEq] at h
        obtain ⟨rfl, rfl⟩ := h
        obtain ⟨ha, hb⟩ := ih a0 b0 hs
        constructor
        · intro x hx
          rcases List.mem_cons.mp hx with rfl | hx
          · exact List.mem_cons_self _ _
          · exact List.mem_cons_of_mem _ (ha x hx)
        · exact fun x hx => List.mem_cons_of_mem _ (hb x hx)

theorem parse_qsl_good (q : List ℕ) (hq : ∀ b ∈ q, b < 256) :
    ∀ kv ∈ parse_qsl q,
      (∀ b ∈ kv.1, b < 256) ∧ kv.2 ≠ [] ∧ (∀ b ∈ kv.2, b < 256) := by
  intro kv hkv
  rcases List.mem_filterMap.mp hkv with ⟨field, hfield, hpf⟩
  have hfsub : ∀ x ∈ field, x < 256 :=
    fun x hx => hq x (splitOnByte_mem_subset 38 q field hfield x hx)
  unfold parseField at hpf
  cases hs : splitFirstEq field with
  | none => rw [hs] at hpf; simp at hpf
  | some p =>
    rcases p with ⟨n, v0⟩
    rw [hs] at hpf
    simp only at hpf
    split at hpf
    · simp at hpf
    · rename_i hv0ne
      simp only [Option.some.injEq] at hpf
      subst hpf
      obtain ⟨hn, hv0⟩ := splitFirstEq_parts field n v0 hs
      refine ⟨?_, ?_, ?_⟩
      · exact unquote_plus_lt n (fun x hx => hfsub x (hn x hx))
      · exact unquote_plus_ne_nil v0 hv0ne
      · exact unquote_plus_lt v0 (fun x hx => hfsub x (hv0 x hx))

theorem dictAppend_entries (d : QDict) (k : List ℕ) (v : List ℕ)
    (hd : ∀ kv ∈ d, (∀ b ∈ kv.1, b < 256) ∧ kv.2 ≠ [] ∧
      ∀ w ∈ kv.2, w ≠ [] ∧ ∀ b ∈ w, b < 256)
    (hk : ∀ b ∈ k, b < 256) (hvne : v ≠ []) (hv : ∀ b ∈ v, b < 256) :
    ∀ kv ∈ dictAppend d k v, (∀ b ∈ kv.1, b < 256) ∧ kv.2 ≠ [] ∧
      ∀ w ∈ kv.2, w ≠ [] ∧ ∀ b ∈ w, b < 256 := by
  induction d with
  | nil =>
    intro kv hkv
    rw [show dictAppend [] k v = [(k, [v])] from rfl] at hkv
    rcases List.mem_singleton.mp hkv with rfl
    refine ⟨hk, by simp, ?_⟩
    intro w hw
    rcases List.mem_singleton.mp hw with rfl
    exact ⟨hvne, hv⟩
  | cons kv0 rest ih =>
    rcases kv0 with ⟨k0, vs0⟩
    intro kv hkv
    rw [show dictAppend ((k0, vs0) :: rest) k v =
      (if k0 = k then (k0, vs0 ++ [v]) :: rest
       else (k0, vs0) :: dictAppend rest k v) from rfl] at hkv
    by_cases heq : k0 = k
    · rw [if_pos heq] at hkv
      rcases List.mem_cons.mp hkv with heq2 | hkv2
      · subst heq2
        obtain ⟨hk0, -, hws⟩ := hd (k0, vs0) (List.mem_cons_self _ _)
        refine ⟨hk0, by simp, ?_⟩
        intro w hw
        rcases List.mem_append.mp hw with hw | hw
        · exact hws w hw
        · rcases List.mem_singleton.mp hw with rfl
          exact ⟨hvne, hv⟩
      · exact hd kv (List.mem_cons_of_mem _ hkv2)
    · rw [if_neg heq] at hkv
      rcases List.mem_cons.mp hkv with heq2 | hkv2
      · subst heq2
        exact hd (k0, vs0) (List.mem_cons_self _ _)
      · exact ih (fun x hx => hd x (List.mem_cons_of_mem _ hx)) kv hkv2

theorem parse_qs_good (q : List ℕ) (hq : ∀ b ∈ q, b < 256) :
    GoodDict (parse_qs q) := by
  unfold parse_qs
  have hl := parse_qsl_good q hq
  generalize parse_qsl q = l at hl
  have main : ∀ (l : List (List ℕ × List ℕ)) (acc : QDict),
      (∀ kv ∈ l, (∀ b ∈ kv.1, b < 256) ∧ kv.2 ≠ [] ∧ ∀ b ∈ kv.2, b < 256) →
      GoodDict acc →
      GoodDict (l.foldl (fun d kv => dictAppend d kv.1 kv.2) acc) := by
    intro l
    induction l with
    | nil => intro acc _ hacc; exact hacc
    | cons kv rest ihl =>
      intro acc hl hacc
      rcases kv with ⟨k, v⟩
      simp only [List.foldl_cons]
      apply ihl
      · exact fun x hx => hl x (List.mem_cons_of_mem _ hx)
      · obtain ⟨hk, hvne, hv⟩ := hl (k, v) (List.mem_cons_self _ _)
        constructor
        · rw [dictAppend_keys]
          split
          · exact hacc.1
          · rename_i hnotmem
            rw [List.nodup_append]
            refine ⟨hacc.1, List.nodup_singleton k, ?_⟩
            intro a ha hamem
            rcases List.mem_singleton.mp hamem with rfl
            exact hnotmem ha
        · exact dictAppend_entries acc k v hacc.2 hk hvne hv
  exact main l [] hl ⟨List.nodup_nil, by simp⟩

theorem headD_mem {α : Type} (l : List α) (d : α) (h : l ≠ []) :
    l.headD d ∈ l := by
  cases l with
  | nil => exact absurd rfl h
  | cons x xs => simp

theorem parse_qs_urlencodeFirst (d : QDict) (hgood : GoodDict d) :
    parse_qs (urlencodeFirst d) =
      d.map (fun kv => (kv.1, [kv.2.headD []])) := by
  have hd : ∀ kv ∈ d, (∀ b ∈ kv.1, b < 256) ∧
      (∀ b ∈ kv.2.headD [], b < 256) ∧ kv.2.headD [] ≠ [] := by
    intro kv hkv
    obtain ⟨hk, hvne, hv⟩ := hgood.2 kv hkv
    have hmem := headD_mem kv.2 [] hvne
    obtain ⟨hne, hlt⟩ := hv _ hmem
    exact ⟨hk, hlt, hne⟩
  unfold parse_qs
  rw [parse_qsl_urlencodeFirst d hd]
  rw [foldl_dictAppend_fresh _ [] ?nodup (by simp)]
  · rw [List.map_map]
    rfl
  case nodup =>
    rw [List.map_map]
    exact hgood.1

theorem countP_key_not_mem (d : QDict) (k : List ℕ)
    (h : k ∉ d.map Prod.fst) :
    d.countP (fun kv => decide (kv.1 = k)) = 0 := by
  rw [List.countP_eq_zero]
  intro kv hkv
  simp only [decide_eq_true_eq]
  intro hrfl
  exact h (List.mem_map.mpr ⟨kv, hkv, hrfl⟩)

theorem dictSet_key_count (d : QDict) (k : List ℕ) (v : List (List ℕ))
    (hnodup : (d.map Prod.fst).Nodup) :
    (dictSet d k v).countP (fun kv => decide (kv.1 = k)) = 1 := by
  induction d with
  | nil => simp [dictSet]
  | cons kv0 rest ih =>
    rcases kv0 with ⟨k0, vs0⟩
    simp only [List.map_cons, List.nodup_cons] at hnodup
    rw [show dictSet ((k0, vs0) :: rest) k v =
      (if k0 = k then (k0, v) :: rest
       else (k0, vs0) :: dictSet rest k v) from rfl]
    by_cases heq : k0 = k
    · subst heq
      rw [if_pos rfl, List.countP_cons, countP_key_not_mem rest k0 hnodup.1]
      simp
    · rw [if_neg heq, List.countP_cons, ih hnodup.2]
      simp [heq]

theorem dictSet_entries (d : QDict) (k : List ℕ) (v : List (List ℕ)) :
    ∀ kv ∈ dictSet d k v, kv ∈ d ∨ kv = (k, v) := by
  induction d with
  | nil =>
    intro kv hkv
    rw [show dictSet [] k v = [(k, v)] from rfl] at hkv
    exact Or.inr (List.mem_singleton.mp hkv)
  | cons kv0 rest ih =>
    rcases kv0 with ⟨k0, vs0⟩
    intro kv hkv
    rw [show dictSet ((k0, vs0) :: rest) k v =
      (if k0 = k then (k0, v) :: rest
       else (k0, vs0) :: dictSet rest k v) from rfl] at hkv
    split at hkv
    · rename_i heq
      subst heq
      rcases List.mem_cons.mp hkv with rfl | hkv2
      · exact Or.inr rfl
      · exact Or.inl (List.mem_cons_of_mem _ hkv2)
    · rcases List.mem_cons.mp hkv with rfl | hkv2
      · exact Or.inl (List.mem_cons_self _ _)
      · rcases ih kv hkv2 with hm | hm
        · exact Or.inl (List.mem_cons_of_mem _ hm)
        · exact Or.inr hm

theorem startKey_bytes : ∀ b ∈ startKey, b < 256 := by decide

theorem dictSet_good (d : QDict) (hgood : GoodDict d) (k : List ℕ)
    (hk : ∀ b ∈ k, b < 256) (w : List ℕ) (hwne : w ≠ [])
    (hw : ∀ b ∈ w, b < 256) :
    GoodDict (dictSet d k [w]) := by
  constructor
  · rw [dictSet_keys]
    split
    · exact hgood.1
    · rename_i hnotmem
      rw [List.nodup_append]
      refine ⟨hgood.1, List.nodup_singleton k, ?_⟩
      intro a ha hamem
      rcases List.mem_singleton.mp hamem with rfl
      exact hnotmem ha
  · intro kv hkv
    rcases dictSet_entries d k [w] kv hkv with hm | hm
    · exact hgood.2 kv hm
    · subst hm
      refine ⟨hk, by simp, ?_⟩
      intro x hx
      rcases List.mem_singleton.mp hx with rfl
      exact ⟨hwne, hw⟩

/-- The dict built at source line 84 (`q_mod = dict(q); q_mod["start"] = [str(s)]`). -/
theorem q_mod_good (q : List ℕ) (hq : ∀ b ∈ q, b < 256) (s : ℤ) :
    GoodDict (dictSet (parse_qs q) startKey [intStr s]) :=
  dictSet_good (parse_qs q) (parse_qs_good q hq) startKey startKey_bytes
    (intStr s) (intStr_ne_nil s) (intStr_bytes s)

theorem build_urls_get (base : ParsedUrl) (sf st sp : ℤ) (i : ℕ)
    (h : i < (build_urls_from_range base sf st sp).length) :
    (build_urls_from_range base sf st sp).get ⟨i, h⟩ =
      ⟨base.scheme, base.netloc, base.path, base.params,
        urlencodeFirst
          (dictSet (parse_qs base.query) startKey [intStr (sf + sp * i)]),
        base.fragment⟩ := by
  simp only [build_urls_from_range, pyRange, List.get_eq_getElem,
    List.getElem_map, List.getElem_range]

theorem getStart_generated (base : ParsedUrl) (hq : ∀ b ∈ base.query, b < 256)
    (s : ℤ) :
    getStart ⟨base.scheme, base.netloc, base.path, base.params,
        urlencodeFirst (dictSet (parse_qs base.query) startKey [intStr s]),
        base.fragment⟩ =
      some (intStr s) := by
  unfold getStart
  dsimp only
  rw [parse_qs_urlencodeFirst _ (q_mod_good base.query hq s)]
  rw [dictFind_map_headD, dictFind_dictSet_self]
  rfl

/-- C3: for `from ≤ to` and `step ≥ 1`, the range-mode Resolver produces
exactly `(to - from) / step + 1` URLs; the `i`-th URL's `start` query value
is the decimal string of `from + step * i`, that key occurs exactly once in
its query string (an existing `start` parameter is overwritten, not
duplicated), and the `start` values are strictly increasing along the
list. -/
theorem build_urls_range_spec (base : ParsedUrl) (sf st sp : ℤ)
    (hle : sf ≤ st) (hstep : 1 ≤ sp) (hq : ∀ b ∈ base.query, b < 256) :
    (build_urls_from_range base sf st sp).length =
      (st - sf).toNat / sp.toNat + 1 ∧
    (∀ i (h : i < (build_urls_from_range base sf st sp).length),
      getStart ((build_urls_from_range base sf st sp).get ⟨i, h⟩) =
        some (intStr (sf + sp * i)) ∧
      (parse_qsl ((build_urls_from_range base sf st sp).get ⟨i, h⟩).query).countP
        (fun kv => decide (kv.1 = startKey)) = 1) ∧
    (∀ i j : ℕ, i < j → sf + sp * (i : ℤ) < sf + sp * (j : ℤ)) := by
  refine ⟨?_, ?_, ?_⟩
  · simp only [build_urls_from_range, List.length_map, pyRange,
      List.length_range, pyRangeLen]
    rw [if_pos ⟨by omega, by omega⟩]
    have : st + 1 - 1 - sf = st - sf := by ring
    rw [this]
  · intro i h
    rw [build_urls_get base sf st sp i h]
    constructor
    · exact getStart_generated base hq (sf + sp * i)
    · dsimp only
      have hgood := q_mod_good base.query hq (sf + sp * i)
      rw [parse_qsl_urlencodeFirst _ ?hd]
      case hd =>
        intro kv hkv
        obtain ⟨hk, hvne, hv⟩ := hgood.2 kv hkv
        have hmem := headD_mem kv.2 [] hvne
        obtain ⟨hne, hlt⟩ := hv _ hmem
        exact ⟨hk, hlt, hne⟩
      rw [List.countP_map]
      have hrw : ((fun kv : List ℕ × List ℕ => decide (kv.1 = startKey)) ∘
          (fun kv : List ℕ × List (List ℕ) => (kv.1, kv.2.headD []))) =
          (fun kv : List ℕ × List (List ℕ) => decide (kv.1 = startKey)) := by
        funext kv
        rfl
      rw [hrw]
      exact dictSet_key_count (parse_qs base.query) startKey
        [intStr (sf + sp * i)] (parse_qs_good base.query hq).1
  · intro i j hij
    have h1 : (i : ℤ) < (j : ℤ) := by exact_mod_cast hij
    have h2 : (0 : ℤ) < sp := by omega
    have := mul_lt_mul_of_pos_left h1 h2
    omega

/-- Witness for the Resolver range theorem: base query `a=1&start=5`,
range 0..10 step 10. -/
theorem build_urls_range_spec_witness :
    ((0:ℤ) ≤ 10) ∧ ((1:ℤ) ≤ 10) ∧
    (∀ b ∈ (⟨[], [], [], [],
        [97, 61, 49, 38, 115, 116, 97, 114, 116, 61, 53], []⟩ : ParsedUrl).query,
      b < 256) ∧
    (build_urls_from_range
        ⟨[], [], [], [], [97, 61, 49, 38, 115, 116, 97, 114, 116, 61, 53], []⟩
        0 10 10).length = ((10:ℤ) - 0).toNat / ((10:ℤ)).toNat + 1 := by
  refine ⟨by norm_num, by norm_num, by decide, ?_⟩
  exact (build_urls_range_spec _ 0 10 10 (by norm_num) (by norm_num)
    (by decide)).1

/-- C4 counterexample: for the base query `a=1&a=2` the generated URL keeps
only the first `a` value, so repeated query parameters are not preserved
with all their values. -/
theorem build_urls_drops_repeated_values :
    dictFind (parse_qs
        (((build_urls_from_range multiParamBase 0 0 1).headD multiParamBase).query))
        [97] ≠
      dictFind (parse_qs multiParamBase.query) [97] := by
  decide

/-- C4 (amended): every generated URL preserves the base URL's scheme,
netloc, path, params and fragment unchanged, and for every query key other
than `start` the generated query retains exactly the first of the base's
parse_qs values for that key (later values of repeated parameters are
dropped, and the query is re-encoded). -/
theorem build_urls_preserves_components (base : ParsedUrl) (sf st sp : ℤ)
    (hq : ∀ b ∈ base.query, b < 256) :
    ∀ u ∈ build_urls_from_range base sf st sp,
      u.scheme = base.scheme ∧ u.netloc = base.netloc ∧
      u.path = base.path ∧ u.params = base.params ∧
      u.fragment = base.fragment ∧
      ∀ k, k ≠ startKey →
        dictFind (parse_qs u.query) k =
          (dictFind (parse_qs base.query) k).map (fun vs => [vs.headD []]) := by
  intro u hu
  rcases List.mem_map.mp hu with ⟨s, hs, rfl⟩
  refine ⟨rfl, rfl, rfl, rfl, rfl, ?_⟩
  intro k hk
  dsimp only
  rw [parse_qs_urlencodeFirst _ (q_mod_good base.query hq s)]
  rw [dictFind_map_headD, dictFind_dictSet_other _ _ _ _ hk]

/-- Witness for the amended component-preservation theorem, on the
repeated-parameter base. -/
theorem build_urls_preserves_components_witness :
    (∀ b ∈ multiParamBase.query, b < 256) ∧
    ((build_urls_from_range multiParamBase 0 0 1).headD multiParamBase ∈
      build_urls_from_range multiParamBase 0 0 1) ∧
    ([97] : List ℕ) ≠ startKey ∧
    dictFind (parse_qs
        (((build_urls_from_range multiParamBase 0 0 1).headD multiParamBase).query))
        [97] =
      (dictFind (parse_qs multiParamBase.query) [97]).map
        (fun vs => [vs.headD []]) := by
  refine ⟨by decide, by decide, by decide, ?_⟩
  exact (build_urls_preserves_components multiParamBase 0 0 1 (by decide)
    ((build_urls_from_range multiParamBase 0 0 1).headD multiParamBase)
    (by decide)).2.2.2.2.2 [97] (by decide)

end Scholar
